import Mathlib

/-!
Verification of the `nitro` SIEVE cache (`src/sieve.rs`, `src/eviction.rs`,
`src/linked_list.rs`, `src/node.rs`, `src/types.rs`).

The Rust code keeps three structures: a `HashMap<K, Arc<Mutex<Node<K,V>>>>`
index, a doubly-linked list of the same shared nodes (`head`/`tail`), and a
roaming `hand` pointer used by the SIEVE eviction sweep.  The shallow
embedding gives every allocated `Arc<Mutex<Node>>` a numeric identity and
keeps all allocated nodes in a heap (`nodes : List (Nat × Node K V)`); the
index, the list links and the `hand` refer to nodes by identity, which models
the aliasing of the `Arc` clones exactly (in particular a node can stay
referenced by `hand` after it was removed from the index and unlinked).  The
heap is never garbage-collected and identities are never reused; entries that
Rust would free are simply unreachable.

Each node also carries `poisoned : Bool`, modelling the poison flag of its
`Mutex` wrapper: `lock()` succeeds and yields the node's fields unless the
flag is set, in which case it fails with `CacheError.LockError`, exactly as
`node.lock().map_err(|e| CacheError::LockError(e.to_string()))?` does.  The
message string of a poisoned-lock error is modelled by the fixed text
"poisoned".  No operation of the model ever sets the flag (the code never
panics while holding a guard); a poisoned node models a store corrupted by an
abnormally terminated holder, per §7 of the specification.

Mutating Rust methods take `&mut self` and return `Result`; they are embedded
as functions `State → State × Option CacheError` (or `× Except CacheError α`)
returning the store as mutated up to the point of return, so a caller that
ignores an error (as `evict` ignores `unlink_node`'s result) still keeps the
partial mutations, as in Rust.

The `while let` loop of `evict` is embedded with explicit fuel
(`nodes.length + 1`).  The fuel is an artifact of totality: every iteration
that does not return clears a `visited` flag that was set, so the loop always
returns within (number of set flags) + 1 iterations, and the chosen fuel is
never exhausted (`evictLoop_no_fuelOut`).  The loop result also carries the
number of flag inspections performed, a ghost counter used by the sweep-bound
theorem.
-/

namespace Nitro

/-- `CacheError` from `src/types.rs`. -/
inductive CacheError where
  | LockError (msg : String)
  | CapacityError (msg : String)
deriving DecidableEq, Repr

deriving instance DecidableEq for Except

/-- `CacheStats` from `src/types.rs`. -/
structure CacheStats where
  hits : Nat
  misses : Nat
deriving DecidableEq, Repr

/-- `Node` from `src/node.rs`, plus the poison flag of its `Mutex` wrapper.
`next`/`prev` are node identities (the `Option<Arc<Mutex<Node>>>` fields). -/
structure Node (K V : Type) where
  key : K
  value : V
  visited : Bool
  next : Option Nat
  prev : Option Nat
  poisoned : Bool
deriving DecidableEq, Repr

/-- `Node::new` from `src/node.rs`: `visited` false, no neighbours; a fresh
`Mutex` is not poisoned. -/
def Node.new {K V : Type} (key : K) (value : V) : Node K V :=
  { key := key, value := value, visited := false, next := none, prev := none,
    poisoned := false }

/-- `SieveCache` from `src/sieve.rs`.  `nodes` is the heap of all allocated
nodes addressed by identity; `cache` is the `HashMap` index as an association
list with unique keys; `nextId` is the allocator counter for fresh node
identities. -/
structure SieveCache (K V : Type) where
  nodes : List (Nat × Node K V)
  cache : List (K × Nat)
  head : Option Nat
  tail : Option Nat
  hand : Option Nat
  size : Nat
  capacity : Nat
  stats : CacheStats
  nextId : Nat
deriving DecidableEq, Repr

variable {K V : Type} [DecidableEq K]

/-- Heap read: the node currently stored at identity `id` (first match). -/
def hfind : List (Nat × Node K V) → Nat → Option (Node K V)
  | [], _ => none
  | p :: t, id => if p.1 = id then some p.2 else hfind t id

/-- Heap write: replace the node stored at identity `id` (every match, so
with unique identities exactly the in-place mutation of the shared node). -/
def hset (nodes : List (Nat × Node K V)) (id : Nat) (m : Node K V) :
    List (Nat × Node K V) :=
  nodes.map (fun p => if p.1 = id then (id, m) else p)

/-- `HashMap::get` on the index. -/
def alookup : List (K × Nat) → K → Option Nat
  | [], _ => none
  | p :: t, k => if p.1 = k then some p.2 else alookup t k

/-- `HashMap::insert` on the index: replace the key's entry if present,
otherwise append. -/
def ainsert : List (K × Nat) → K → Nat → List (K × Nat)
  | [], k, id => [(k, id)]
  | p :: t, k, id => if p.1 = k then (k, id) :: t else p :: ainsert t k id

/-- `HashMap::remove` on the index (keys are unique, so first match). -/
def aremove : List (K × Nat) → K → List (K × Nat)
  | [], _ => []
  | p :: t, k => if p.1 = k then t else p :: aremove t k

/-- `node.lock().map_err(|e| CacheError::LockError(e.to_string()))`:
succeeds with the node's current fields unless its mutex is poisoned.  The
`none` branch (an identity missing from the heap) cannot arise from reachable
states, since the heap is never garbage-collected; it is mapped to a lock
failure to keep the function total. -/
def lockNode (nodes : List (Nat × Node K V)) (id : Nat) :
    Except CacheError (Node K V) :=
  match hfind nodes id with
  | some n => if n.poisoned then .error (.LockError "poisoned") else .ok n
  | none => .error (.LockError "poisoned")

/-- `SieveCache::insert_node` from `src/linked_list.rs`: allocate a node with
`next` pointing at the old head, re-point the old head's `prev` (this lock can
fail, in which case nothing was yet published and the error propagates), set
the new head, set `tail` if the list was empty, register the node in the
index, increment `size`. -/
def insert_node (c : SieveCache K V) (key : K) (value : V) :
    SieveCache K V × Option CacheError :=
  let id := c.nextId
  let newNode := { Node.new key value with next := c.head }
  match c.head with
  | some h =>
    match lockNode c.nodes h with
    | .error e => (c, some e)
    | .ok hn =>
      let nodes := hset c.nodes h { hn with prev := some id } ++ [(id, newNode)]
      ({ c with
          nodes := nodes
          head := some id
          tail := if c.tail.isNone then some id else c.tail
          cache := ainsert c.cache key id
          size := c.size + 1
          nextId := id + 1 }, none)
  | none =>
    ({ c with
        nodes := c.nodes ++ [(id, newNode)]
        head := some id
        tail := if c.tail.isNone then some id else c.tail
        cache := ainsert c.cache key id
        size := c.size + 1
        nextId := id + 1 }, none)

/-- `SieveCache::unlink_node` from `src/linked_list.rs`: read the node's
`next`/`prev` under its own lock, then update the predecessor's `next` (or
`head`), then the successor's `prev` (or `tail`).  On a lock failure the
mutations already made are kept, as with `&mut self` in Rust. -/
def unlink_node (c : SieveCache K V) (id : Nat) :
    SieveCache K V × Option CacheError :=
  match lockNode c.nodes id with
  | .error e => (c, some e)
  | .ok n =>
    let step1 : SieveCache K V × Option CacheError :=
      match n.prev with
      | some p =>
        match lockNode c.nodes p with
        | .error e => (c, some e)
        | .ok pn => ({ c with nodes := hset c.nodes p { pn with next := n.next } }, none)
      | none => ({ c with head := n.next }, none)
    match step1 with
    | (c1, some e) => (c1, some e)
    | (c1, none) =>
      match n.next with
      | some nx =>
        match lockNode c1.nodes nx with
        | .error e => (c1, some e)
        | .ok nn => ({ c1 with nodes := hset c1.nodes nx { nn with prev := n.prev } }, none)
      | none => ({ c1 with tail := n.prev }, none)

/-- Result of one `evict` call: normal return (with the ghost count of flag
inspections the sweep performed), an error return, or exhaustion of the
model's loop fuel (proved unreachable in `evictLoop_no_fuelOut`). -/
inductive EvictResult where
  | done (inspections : Nat)
  | failed (e : CacheError)
  | fuelOut
deriving DecidableEq, Repr

/-- The `while let Some(current) = &self.hand` loop of `SieveCache::evict`
(`src/eviction.rs`).  An unvisited entry is the victim: its key is removed
from the index, the node is unlinked — **the `Result` of `unlink_node` is
discarded, as on line 31 of `src/eviction.rs` (no `?`)** — the hand moves to
the recorded `prev` and `size` is decremented.  A visited entry has its flag
cleared and the hand moves to its `prev`, wrapping to `tail` when that is
unset. -/
def evictLoop : Nat → SieveCache K V → Nat → SieveCache K V × EvictResult
  | 0, c, _ => (c, .fuelOut)
  | fuel + 1, c, insp =>
    match c.hand with
    | none => (c, .done insp)
    | some cur =>
      match lockNode c.nodes cur with
      | .error e => (c, .failed e)
      | .ok n =>
        if n.visited = false then
          let c := { c with cache := aremove c.cache n.key }
          let c := (unlink_node c cur).1
          let c := { c with hand := n.prev }
          ({ c with size := c.size - 1 }, .done (insp + 1))
        else
          let c := { c with nodes := hset c.nodes cur { n with visited := false } }
          let c := { c with hand := n.prev }
          let c := if c.hand.isNone then { c with hand := c.tail } else c
          evictLoop fuel c (insp + 1)

/-- `SieveCache::evict` from `src/eviction.rs`: anchor the hand at `tail`
when unset, then sweep. -/
def evict (c : SieveCache K V) : SieveCache K V × EvictResult :=
  let c := if c.hand.isNone then { c with hand := c.tail } else c
  evictLoop (c.nodes.length + 1) c 0

namespace SieveCache

/-- The private `SieveCache::insert`: evict exactly once when full, then link
the new entry.  `self.evict()?` propagates an eviction error; the fuel-out
branch of the model cannot arise (`evictLoop_no_fuelOut`) and is mapped to an
error marked as such. -/
def insert (c : SieveCache K V) (key : K) (value : V) :
    SieveCache K V × Option CacheError :=
  if c.size = c.capacity then
    match evict c with
    | (c1, .done _) => insert_node c1 key value
    | (c1, .failed e) => (c1, some e)
    | (c1, .fuelOut) => (c1, some (.LockError "model fuel exhausted: unreachable"))
  else insert_node c key value

/-- `SieveCache::get`: on a hit, set the entry's `visited` flag, count a hit
and return a clone of the value; on a miss, count a miss. -/
def get (c : SieveCache K V) (key : K) :
    SieveCache K V × Except CacheError (Option V) :=
  match alookup c.cache key with
  | some id =>
    match lockNode c.nodes id with
    | .error e => (c, .error e)
    | .ok n =>
      ({ c with
          nodes := hset c.nodes id { n with visited := true }
          stats := { c.stats with hits := c.stats.hits + 1 } },
        .ok (some n.value))
  | none =>
    ({ c with stats := { c.stats with misses := c.stats.misses + 1 } }, .ok none)

/-- `SieveCache::add`: on an existing key, set `visited` and overwrite the
value; otherwise insert. -/
def add (c : SieveCache K V) (key : K) (value : V) :
    SieveCache K V × Except CacheError Bool :=
  match alookup c.cache key with
  | some id =>
    match lockNode c.nodes id with
    | .error e => (c, .error e)
    | .ok n =>
      ({ c with nodes := hset c.nodes id { n with visited := true, value := value } },
        .ok true)
  | none =>
    match insert c key value with
    | (c1, none) => (c1, .ok false)
    | (c1, some e) => (c1, .error e)

/-- `SieveCache::probe`: on an existing key return the stored value, touching
nothing; otherwise insert the offered value and return it. -/
def probe (c : SieveCache K V) (key : K) (value : V) :
    SieveCache K V × Except CacheError (V × Bool) :=
  match alookup c.cache key with
  | some id =>
    match lockNode c.nodes id with
    | .error e => (c, .error e)
    | .ok n => (c, .ok (n.value, true))
  | none =>
    match insert c key value with
    | (c1, none) => (c1, .ok (value, false))
    | (c1, some e) => (c1, .error e)

/-- `SieveCache::delete`: remove from the index, unlink (`?` propagates a
lock failure, in which case `size` is not yet decremented), decrement
`size`.  The hand is not touched. -/
def delete (c : SieveCache K V) (key : K) :
    SieveCache K V × Except CacheError Bool :=
  match alookup c.cache key with
  | some id =>
    let c := { c with cache := aremove c.cache key }
    match unlink_node c id with
    | (c1, some e) => (c1, .error e)
    | (c1, none) => ({ c1 with size := c1.size - 1 }, .ok true)
  | none => (c, .ok false)

/-- `SieveCache::purge`: clear the index, the list pointers, the hand and the
size; statistics, capacity (and the model's allocator) are untouched. -/
def purge (c : SieveCache K V) : SieveCache K V :=
  { c with cache := [], head := none, tail := none, hand := none, size := 0 }

/-- `SieveCache::len`. -/
def len (c : SieveCache K V) : Nat := c.size

/-- `SieveCache::is_empty`. -/
def is_empty (c : SieveCache K V) : Bool := c.size = 0

/-- `SieveCache::get_stats`. -/
def get_stats (c : SieveCache K V) : CacheStats := c.stats

/-- The empty store `SieveCache::new` returns on a valid capacity. -/
def mkEmpty (capacity : Nat) : SieveCache K V :=
  { nodes := [], cache := [], head := none, tail := none, hand := none,
    size := 0, capacity := capacity, stats := { hits := 0, misses := 0 },
    nextId := 0 }

/-- `SieveCache::new` from `src/sieve.rs`. -/
def new (capacity : Nat) : Except CacheError (SieveCache K V) :=
  if capacity < 1 then
    .error (.CapacityError "Cache capacity cannot be zero")
  else
    .ok (mkEmpty capacity)

end SieveCache

/-! ## Observations used to state the claims -/

/-- Whether `get` would return a value for `key` (the observation, not the
mutation). -/
def hasKey (c : SieveCache K V) (key : K) : Bool :=
  match (SieveCache.get c key).2 with
  | .ok (some _) => true
  | _ => false

/-- The identities on the forward walk of the list from `head` (the walk the
`CacheIterator` of `src/iter.rs` performs); fueled by the heap size, which
bounds any acyclic walk. -/
def listIdsGo (nodes : List (Nat × Node K V)) : Nat → Option Nat → List Nat
  | 0, _ => []
  | _ + 1, none => []
  | fuel + 1, some id =>
    match hfind nodes id with
    | some n => id :: listIdsGo nodes fuel n.next
    | none => [id]

/-- Forward traversal of the list, by node identity. -/
def listIds (c : SieveCache K V) : List Nat :=
  listIdsGo c.nodes (c.nodes.length + 1) c.head

/-- The last element of `l` as an option, defaulting to `pr`: the identity a
node whose segment ends here should record as `prev`. -/
def lastD (pr : Option Nat) : List Nat → Option Nat
  | [] => pr
  | a :: t => lastD (some a) t

/-- `headD l nx`: the first element of `l`, defaulting to `nx`: the identity
a node whose segment starts here should record as `next`. -/
def headD (l : List Nat) (nx : Option Nat) : Option Nat :=
  match l with
  | [] => nx
  | j :: _ => some j

/-- `chainSeg nodes pr l nx`: the identities `l` form a properly doubly-linked
segment whose first node records `pr` as `prev` and whose last node records
`nx` as `next`; every node on it is allocated and not poisoned. -/
def chainSeg (nodes : List (Nat × Node K V)) :
    Option Nat → List Nat → Option Nat → Bool
  | _, [], _ => true
  | pr, id :: rest, nx =>
    match hfind nodes id with
    | none => false
    | some n =>
      !n.poisoned && decide (n.prev = pr) && decide (n.next = headD rest nx) &&
        chainSeg nodes (some id) rest nx

/-- Every identity of `order` is indexed under its node's key. -/
def indexAll (nodes : List (Nat × Node K V)) (cache : List (K × Nat))
    (order : List Nat) : Bool :=
  order.all fun id =>
    match hfind nodes id with
    | some n => decide (alookup cache n.key = some id)
    | none => false

/-- The number of set `visited` flags among the nodes `order`. -/
def trueInOrder (nodes : List (Nat × Node K V)) : List Nat → Nat
  | [] => 0
  | id :: rest =>
    (match hfind nodes id with
      | some n => if n.visited then 1 else 0
      | none => 0) + trueInOrder nodes rest

/-- Consistency of a store with a witness `order`, the list's identities from
head to tail: the invariants of §3 of the specification (index and list agree,
every entry linked exactly once, `head`/`tail` at the ends, `size` equal to
the entry count, the hand live or unset, no poisoned guard). -/
structure Consistent (c : SieveCache K V) (order : List Nat) : Prop where
  chain_ok : chainSeg c.nodes none order none = true
  head_ok : c.head = order.head?
  tail_ok : c.tail = lastD none order
  hand_ok : (match c.hand with
    | none => true
    | some id => decide (id ∈ order)) = true
  size_ok : c.size = order.length
  order_nodup : order.Nodup
  index_len : c.cache.length = order.length
  index_keys_nodup : (c.cache.map Prod.fst).Nodup
  index_ok : indexAll c.nodes c.cache order = true

/-- The number of set `visited` flags in the whole heap; the loop measure of
the eviction sweep. -/
def trueCount : List (Nat × Node K V) → Nat
  | [] => 0
  | p :: t => (if p.2.visited then 1 else 0) + trueCount t

/-! ## Concrete runs (the scenario inputs of the claims)

Keys and values are natural numbers; `key1`, `key2`, … are `1`, `2`, …  Node
identities are allocated `0`, `1`, … in insertion order. -/

/-- A fresh store of capacity 2 (the payload of `SieveCache::new(2)`). -/
def cap2 : SieveCache Nat Nat := SieveCache.mkEmpty 2

/-- The specification's eviction scenario: `add(1,10)`, `add(2,20)`,
`get(1)`, `add(3,30)` on a capacity-2 store. -/
def runB1 : SieveCache Nat Nat := (SieveCache.add cap2 1 10).1
def runB2 : SieveCache Nat Nat := (SieveCache.add runB1 2 20).1
def runB3 : SieveCache Nat Nat := (SieveCache.get runB2 1).1
def runB4 : SieveCache Nat Nat := (SieveCache.add runB3 3 30).1

/-- An `add`/`delete` sequence on a capacity-2 store that leaves the hand on
a deleted entry and then lets the sweep "evict" that dead entry:
`add(1,10)`, `add(2,20)`, `add(1,11)`, `add(2,22)`, `add(3,30)` (the eviction
of key 1 parks the hand on key 2's node), `delete(2)` (the hand now dangles),
`add(4,40)`, `add(5,50)` (the sweep treats the dead node as the victim and
decrements `size` without removing anything live). -/
def runA1 : SieveCache Nat Nat := (SieveCache.add cap2 1 10).1
def runA2 : SieveCache Nat Nat := (SieveCache.add runA1 2 20).1
def runA3 : SieveCache Nat Nat := (SieveCache.add runA2 1 11).1
def runA4 : SieveCache Nat Nat := (SieveCache.add runA3 2 22).1
def runA5 : SieveCache Nat Nat := (SieveCache.add runA4 3 30).1
def runA6 : SieveCache Nat Nat := (SieveCache.delete runA5 2).1
def runA7 : SieveCache Nat Nat := (SieveCache.add runA6 4 40).1
def runA8 : SieveCache Nat Nat := (SieveCache.add runA7 5 50).1

/-- A consistent full capacity-3 store whose middle entry's mutex is
poisoned (the poison flag can only be set by a panicking lock holder, i.e.
outside the sequential model; this is the store §7 of the specification
talks about).  List head-to-tail: id 2 (key 102), id 1 (key 101, poisoned),
id 0 (key 100, unvisited tail).  An eviction started here picks id 0 as the
victim and must unlink it past its poisoned neighbour id 1. -/
def poisonedStore : SieveCache Nat Nat :=
  { nodes :=
      [(0, { key := 100, value := 0, visited := false, next := none,
             prev := some 1, poisoned := false }),
       (1, { key := 101, value := 1, visited := false, next := some 0,
             prev := some 2, poisoned := true }),
       (2, { key := 102, value := 2, visited := false, next := some 1,
             prev := none, poisoned := false })],
    cache := [(100, 0), (101, 1), (102, 2)],
    head := some 2, tail := some 0, hand := none,
    size := 3, capacity := 3, stats := { hits := 0, misses := 0 }, nextId := 3 }

/-- A consistent capacity-2 store holding keys 1 and 2 (`add(1,10)` then
`add(2,20)` on a fresh store); its list order head-to-tail is `[1, 0]`. -/
def wCache : SieveCache Nat Nat := (SieveCache.add runA1 2 20).1

/-! ## Heap and index lemmas -/

theorem hset_cons {p : Nat × Node K V} {t : List (Nat × Node K V)} {id : Nat}
    {m : Node K V} :
    hset (p :: t) id m = (if p.1 = id then (id, m) else p) :: hset t id m := rfl

theorem hfind_hset_self {nodes : List (Nat × Node K V)} {id : Nat}
    {n m : Node K V} (h : hfind nodes id = some n) :
    hfind (hset nodes id m) id = some m := by
  induction nodes with
  | nil => simp [hfind] at h
  | cons p t ih =>
    rw [hset_cons]
    by_cases hp : p.1 = id
    · rw [if_pos hp]
      simp [hfind]
    · rw [if_neg hp]
      simp only [hfind, hp, if_false] at h ⊢
      exact ih h

theorem hfind_hset_ne {nodes : List (Nat × Node K V)} {id j : Nat}
    {m : Node K V} (h : j ≠ id) :
    hfind (hset nodes id m) j = hfind nodes j := by
  induction nodes with
  | nil => rfl
  | cons p t ih =>
    rw [hset_cons]
    by_cases hp : p.1 = id
    · rw [if_pos hp]
      simp only [hfind, Ne.symm h, if_false, hp ▸ Ne.symm h]
      exact ih
    · rw [if_neg hp]
      by_cases hj : p.1 = j
      · simp [hfind, hj]
      · simp only [hfind, hj, if_false]
        exact ih

theorem hset_length {nodes : List (Nat × Node K V)} {id : Nat}
    {m : Node K V} : (hset nodes id m).length = nodes.length := by
  simp [hset]

theorem hfind_some_mem {nodes : List (Nat × Node K V)} {id : Nat}
    {n : Node K V} (h : hfind nodes id = some n) : id ∈ nodes.map Prod.fst := by
  induction nodes with
  | nil => simp [hfind] at h
  | cons p t ih =>
    by_cases hp : p.1 = id
    · simp [hp]
    · simp [hfind, hp] at h
      simp [ih h]

theorem alookup_not_mem_none {cache : List (K × Nat)} {k : K}
    (h : k ∉ cache.map Prod.fst) : alookup cache k = none := by
  induction cache with
  | nil => rfl
  | cons p t ih =>
    have h1 : ¬p.1 = k := by
      intro e
      exact h (by rw [List.map_cons, e]; exact List.mem_cons_self k _)
    have h2 : k ∉ t.map Prod.fst := by
      intro m
      exact h (by rw [List.map_cons]; exact List.mem_cons_of_mem _ m)
    simp [alookup, h1, ih h2]

theorem alookup_some_length_aremove {cache : List (K × Nat)} {k : K} {id : Nat}
    (h : alookup cache k = some id) :
    (aremove cache k).length + 1 = cache.length := by
  induction cache with
  | nil => simp [alookup] at h
  | cons p t ih =>
    by_cases hp : p.1 = k
    · simp [aremove, hp]
    · simp [alookup, hp] at h
      simp [aremove, hp, ih h]

theorem alookup_aremove_self {cache : List (K × Nat)} {k : K}
    (h : (cache.map Prod.fst).Nodup) : alookup (aremove cache k) k = none := by
  induction cache with
  | nil => rfl
  | cons p t ih =>
    rw [List.map_cons] at h
    obtain ⟨h1, h2⟩ := List.nodup_cons.mp h
    by_cases hp : p.1 = k
    · simp only [aremove, hp, if_true]
      exact alookup_not_mem_none (hp ▸ h1)
    · simp [aremove, hp, alookup, ih h2]

/-! ## Statistics are only touched by `get` -/

theorem unlink_node_stats (c : SieveCache K V) (id : Nat) :
    ((unlink_node c id).1).stats = c.stats := by
  rcases hlock : lockNode c.nodes id with e | n
  · simp [unlink_node, hlock]
  · rcases hp : n.prev with _ | p
    · rcases hn : n.next with _ | nx
      · simp [unlink_node, hlock, hp, hn]
      · rcases hl : lockNode c.nodes nx with e2 | nn <;>
          simp [unlink_node, hlock, hp, hn, hl]
    · rcases hq : lockNode c.nodes p with e2 | pn
      · simp [unlink_node, hlock, hp, hq]
      · rcases hn : n.next with _ | nx
        · simp [unlink_node, hlock, hp, hq, hn]
        · rcases hl : lockNode (hset c.nodes p { pn with next := some nx }) nx
            with e2 | nn <;>
            simp [unlink_node, hlock, hp, hq, hn, hl]

theorem insert_node_stats (c : SieveCache K V) (k : K) (v : V) :
    ((insert_node c k v).1).stats = c.stats := by
  rcases hh : c.head with _ | h
  · simp [insert_node, hh]
  · rcases hl : lockNode c.nodes h with e | hn <;> simp [insert_node, hh, hl]

theorem evictLoop_stats (fuel : Nat) :
    ∀ (c : SieveCache K V) (insp : Nat),
      ((evictLoop fuel c insp).1).stats = c.stats := by
  induction fuel with
  | zero => intro c insp; rfl
  | succ fuel ih =>
    intro c insp
    rcases hh : c.hand with _ | cur
    · simp [evictLoop, hh]
    · rcases hl : lockNode c.nodes cur with e | n
      · simp [evictLoop, hh, hl]
      · cases hv : n.visited with
        | false => simp [evictLoop, hh, hl, hv, unlink_node_stats]
        | true =>
          simp only [evictLoop, hh, hl, hv]
          rw [if_neg (by simp : ¬(true = false))]
          rw [ih]
          split <;> rfl

theorem evict_stats (c : SieveCache K V) : ((evict c).1).stats = c.stats := by
  unfold evict
  split <;> simp [evictLoop_stats]

theorem insert_stats (c : SieveCache K V) (k : K) (v : V) :
    ((SieveCache.insert c k v).1).stats = c.stats := by
  unfold SieveCache.insert
  split
  · rcases he : evict c with ⟨c1, r⟩
    have h1 : c1.stats = c.stats := by
      have := evict_stats c
      rw [he] at this
      exact this
    rcases r with insp | e | _
    · simpa [insert_node_stats] using h1
    · simpa using h1
    · simpa using h1
  · simp [insert_node_stats]

/-- The forward walk of the list only depends on the heap through each
node's `next` pointer. -/
theorem listIdsGo_congr {nodes1 nodes : List (Nat × Node K V)}
    (h : ∀ j, (hfind nodes1 j).map Node.next = (hfind nodes j).map Node.next) :
    ∀ (fuel : Nat) (o : Option Nat),
      listIdsGo nodes1 fuel o = listIdsGo nodes fuel o := by
  intro fuel
  induction fuel with
  | zero => intro o; rfl
  | succ fuel ih =>
    intro o
    rcases o with _ | id
    · rfl
    · have hj := h id
      rcases hf : hfind nodes id with _ | n
      · rw [hf] at hj
        rcases hf1 : hfind nodes1 id with _ | n1
        · simp [listIdsGo, hf, hf1]
        · rw [hf1] at hj
          simp at hj
      · rw [hf] at hj
        rcases hf1 : hfind nodes1 id with _ | n1
        · rw [hf1] at hj
          simp at hj
        · rw [hf1] at hj
          simp at hj
          simp [listIdsGo, hf, hf1, hj, ih]

/-! ## Claim theorems (concrete runs and frame properties) -/

/-- C5: on a fresh capacity-2 store, after `add(1,10)`, `add(2,20)`,
`get(1)`, `add(3,30)`, the store retains keys 1 and 3 with their values and
key 2 is gone (`get` answers `none`); the store stays at `len = 2`. -/
theorem capacity2_eviction_scenario :
    (SieveCache.add cap2 1 10).2 = Except.ok false ∧
    (SieveCache.add runB1 2 20).2 = Except.ok false ∧
    (SieveCache.get runB2 1).2 = Except.ok (some 10) ∧
    (SieveCache.add runB3 3 30).2 = Except.ok false ∧
    (SieveCache.get runB4 1).2 = Except.ok (some 10) ∧
    (SieveCache.get runB4 2).2 = Except.ok none ∧
    (SieveCache.get runB4 3).2 = Except.ok (some 30) ∧
    SieveCache.len runB4 = 2 := by decide

/-- C2 counterexample: after `add(1,10)`, `add(2,20)`, `add(1,11)`,
`add(2,22)`, `add(3,30)` the eviction of key 1 parks the hand on key 2's
node (identity 1), which is live; the subsequent `delete(2)` removes that
node from the index and the list but leaves `hand = some 1`, so the hand
refers to an entry that is neither in the index nor linked in the list. -/
theorem delete_leaves_hand_on_dead_entry :
    runA5.hand = some 1 ∧
    listIds runA5 = [2, 1] ∧
    runA5.cache = [(2, 1), (3, 2)] ∧
    (SieveCache.delete runA5 2).2 = Except.ok true ∧
    runA6.hand = some 1 ∧
    runA6.cache = [(3, 2)] ∧
    listIds runA6 = [2] ∧
    1 ∉ runA6.cache.map Prod.snd ∧
    1 ∉ listIds runA6 := by decide

/-- C1 counterexample: continuing the run of
`delete_leaves_hand_on_dead_entry` with `add(4,40)` and `add(5,50)`, the
sweep picks the dead node as its victim and decrements `size` without
removing any live entry, after which `len()` is 2 while `get` returns a
value for the three distinct keys 3, 4 and 5. -/
theorem delete_then_evict_breaks_len_inventory :
    SieveCache.new 2 = Except.ok cap2 ∧
    (SieveCache.add cap2 1 10).2 = Except.ok false ∧
    (SieveCache.add runA1 2 20).2 = Except.ok false ∧
    (SieveCache.add runA2 1 11).2 = Except.ok true ∧
    (SieveCache.add runA3 2 22).2 = Except.ok true ∧
    (SieveCache.add runA4 3 30).2 = Except.ok false ∧
    (SieveCache.delete runA5 2).2 = Except.ok true ∧
    (SieveCache.add runA6 4 40).2 = Except.ok false ∧
    (SieveCache.add runA7 5 50).2 = Except.ok false ∧
    SieveCache.len runA8 = 2 ∧
    runA8.capacity = 2 ∧
    hasKey runA8 3 = true ∧
    hasKey runA8 4 = true ∧
    hasKey runA8 5 = true ∧
    runA8.cache = [(3, 2), (4, 3), (5, 4)] ∧
    listIds runA8 = [4, 3, 2] := by decide

/-- C3 counterexample: on `poisonedStore`, the eviction inside
`add(999, 9)` picks the unvisited tail (identity 0) as victim; unlinking it
requires locking its poisoned neighbour (identity 1) and fails with a
`LockError`, but `evict` discards that result (`src/eviction.rs` line 31
has no `?`), so the whole `add` reports success.  The store is left with
`size` decremented to 2 while the victim is still linked in the list. -/
theorem evict_swallows_unlink_lock_failure :
    (SieveCache.add poisonedStore 999 9).2 = Except.ok false ∧
    (evict poisonedStore).2 = EvictResult.done 1 ∧
    (unlink_node { poisonedStore with cache := aremove poisonedStore.cache 100 } 0).2
      = some (CacheError.LockError "poisoned") ∧
    ((evict poisonedStore).1).size = 2 ∧
    listIds ((evict poisonedStore).1) = [2, 1, 0] := by decide

/-- C8: `purge` empties the store — `len` 0, `is_empty`, `get` finds no key,
`head`/`tail`/`hand` unset — while the hit/miss counters and the capacity
keep their pre-purge values. -/
theorem purge_resets_structure_not_stats (c : SieveCache K V) (k : K) :
    SieveCache.len (SieveCache.purge c) = 0 ∧
    SieveCache.is_empty (SieveCache.purge c) = true ∧
    (SieveCache.purge c).head = none ∧
    (SieveCache.purge c).tail = none ∧
    (SieveCache.purge c).hand = none ∧
    (SieveCache.get (SieveCache.purge c) k).2 = Except.ok none ∧
    (SieveCache.purge c).stats.hits = c.stats.hits ∧
    (SieveCache.purge c).stats.misses = c.stats.misses ∧
    (SieveCache.purge c).capacity = c.capacity :=
  ⟨rfl, rfl, rfl, rfl, rfl, rfl, rfl, rfl, rfl⟩

/-- C9: `new` rejects exactly the capacities below 1 with a
`CapacityError`; on any other capacity it returns the empty store with that
capacity, no entries, unset pointers and zeroed statistics. -/
theorem new_validates_capacity (cap : Nat) :
    ((∃ msg, (SieveCache.new cap : Except CacheError (SieveCache K V)) =
        Except.error (CacheError.CapacityError msg)) ↔ cap < 1) ∧
    (1 ≤ cap → ∃ c : SieveCache K V,
      SieveCache.new cap = Except.ok c ∧ c.size = 0 ∧ c.head = none ∧
      c.tail = none ∧ c.hand = none ∧ c.capacity = cap ∧
      c.stats.hits = 0 ∧ c.stats.misses = 0 ∧ c.cache = [] ∧ c.nodes = []) := by
  constructor
  · constructor
    · rintro ⟨msg, h⟩
      by_contra hc
      simp [SieveCache.new, hc] at h
    · intro h
      exact ⟨"Cache capacity cannot be zero", by simp [SieveCache.new, h]⟩
  · intro h
    refine ⟨SieveCache.mkEmpty cap, ?_, rfl, rfl, rfl, rfl, rfl, rfl, rfl, rfl, rfl⟩
    simp [SieveCache.new, Nat.not_lt.mpr h]

theorem new_validates_capacity_witness :
    ∃ c : SieveCache Nat Nat,
      SieveCache.new 5 = Except.ok c ∧ c.size = 0 ∧ c.head = none ∧
      c.tail = none ∧ c.hand = none ∧ c.capacity = 5 ∧
      c.stats.hits = 0 ∧ c.stats.misses = 0 ∧ c.cache = [] ∧ c.nodes = [] :=
  (new_validates_capacity 5).2 (by decide)

/-- C7: `probe` on a present key returns the stored value with
`existed = true` and mutates nothing at all — the store is returned
unchanged, so the stored value and the entry's `visited` flag keep their
old state, and a second identical `probe` gives the same answer. -/
theorem probe_hit_returns_existing_untouched (c : SieveCache K V) (k : K)
    (v2 : V) (id : Nat) (n : Node K V)
    (h1 : alookup c.cache k = some id) (h2 : hfind c.nodes id = some n)
    (h3 : n.poisoned = false) :
    SieveCache.probe c k v2 = (c, Except.ok (n.value, true)) ∧
    SieveCache.probe (SieveCache.probe c k v2).1 k v2 =
      (c, Except.ok (n.value, true)) ∧
    hfind ((SieveCache.probe c k v2).1).nodes id = some n := by
  have hp : SieveCache.probe c k v2 = (c, Except.ok (n.value, true)) := by
    simp [SieveCache.probe, h1, lockNode, h2, h3]
  refine ⟨hp, ?_, ?_⟩
  · rw [hp]
    exact hp
  · rw [hp]
    exact h2

theorem probe_hit_returns_existing_untouched_witness :
    SieveCache.probe wCache 1 99 = (wCache, Except.ok (10, true)) ∧
    SieveCache.probe (SieveCache.probe wCache 1 99).1 1 99 =
      (wCache, Except.ok (10, true)) ∧
    hfind ((SieveCache.probe wCache 1 99).1).nodes 0 =
      some { key := 1, value := 10, visited := false, next := none,
             prev := some 1, poisoned := false } :=
  probe_hit_returns_existing_untouched wCache 1 99 0
    { key := 1, value := 10, visited := false, next := none,
      prev := some 1, poisoned := false }
    (by decide) (by decide) (by decide)

/-- C6: `get` on a present key changes only that entry's `visited` flag and
the `hits` counter — head, tail, hand, size, capacity, the index, the
forward order of the list, and every node's key, value and links are
unchanged; on an absent key it changes only the `misses` counter and
returns `none`. -/
theorem get_touches_only_visited_and_stats (c : SieveCache K V) (k : K) :
    (∀ id n, alookup c.cache k = some id → hfind c.nodes id = some n →
      n.poisoned = false →
      (SieveCache.get c k).2 = Except.ok (some n.value) ∧
      ((SieveCache.get c k).1).head = c.head ∧
      ((SieveCache.get c k).1).tail = c.tail ∧
      ((SieveCache.get c k).1).hand = c.hand ∧
      ((SieveCache.get c k).1).size = c.size ∧
      ((SieveCache.get c k).1).capacity = c.capacity ∧
      ((SieveCache.get c k).1).cache = c.cache ∧
      ((SieveCache.get c k).1).stats.hits = c.stats.hits + 1 ∧
      ((SieveCache.get c k).1).stats.misses = c.stats.misses ∧
      listIds ((SieveCache.get c k).1) = listIds c ∧
      hfind ((SieveCache.get c k).1).nodes id = some { n with visited := true } ∧
      (∀ j, j ≠ id → hfind ((SieveCache.get c k).1).nodes j = hfind c.nodes j)) ∧
    (alookup c.cache k = none →
      SieveCache.get c k =
        ({ c with stats := { c.stats with misses := c.stats.misses + 1 } },
          Except.ok none)) := by
  constructor
  · intro id n h1 h2 h3
    have hg : SieveCache.get c k =
        ({ c with
            nodes := hset c.nodes id { n with visited := true }
            stats := { c.stats with hits := c.stats.hits + 1 } },
          Except.ok (some n.value)) := by
      simp [SieveCache.get, h1, lockNode, h2, h3]
    have hnext : ∀ j,
        (hfind (hset c.nodes id { n with visited := true }) j).map Node.next =
          (hfind c.nodes j).map Node.next := by
      intro j
      by_cases hj : j = id
      · subst hj
        rw [hfind_hset_self h2, h2]
        rfl
      · rw [hfind_hset_ne hj]
    rw [hg]
    refine ⟨rfl, rfl, rfl, rfl, rfl, rfl, rfl, rfl, rfl, ?_, ?_, ?_⟩
    · show listIdsGo _ _ _ = listIdsGo _ _ _
      rw [hset_length]
      exact listIdsGo_congr hnext _ _
    · exact hfind_hset_self h2
    · intro j hj
      exact hfind_hset_ne hj
  · intro h1
    simp [SieveCache.get, h1]

theorem get_touches_only_visited_and_stats_witness :
    (SieveCache.get wCache 1).2 = Except.ok (some 10) ∧
    ((SieveCache.get wCache 1).1).head = wCache.head ∧
    ((SieveCache.get wCache 1).1).tail = wCache.tail ∧
    ((SieveCache.get wCache 1).1).hand = wCache.hand ∧
    ((SieveCache.get wCache 1).1).size = wCache.size ∧
    ((SieveCache.get wCache 1).1).capacity = wCache.capacity ∧
    ((SieveCache.get wCache 1).1).cache = wCache.cache ∧
    ((SieveCache.get wCache 1).1).stats.hits = wCache.stats.hits + 1 ∧
    ((SieveCache.get wCache 1).1).stats.misses = wCache.stats.misses ∧
    listIds ((SieveCache.get wCache 1).1) = listIds wCache ∧
    hfind ((SieveCache.get wCache 1).1).nodes 0 =
      some { key := 1, value := 10, visited := true, next := none,
             prev := some 1, poisoned := false } ∧
    (∀ j, j ≠ 0 →
      hfind ((SieveCache.get wCache 1).1).nodes j = hfind wCache.nodes j) :=
  (get_touches_only_visited_and_stats wCache 1).1 0
    { key := 1, value := 10, visited := false, next := none,
      prev := some 1, poisoned := false }
    (by decide) (by decide) (by decide)

/-- C10: `probe` leaves the hit/miss counters unchanged in both of its
branches, as do `add`, `delete`, `purge` and eviction; only `get` touches
the statistics, and it only increments, so the counters never decrease
under any operation. -/
theorem only_get_touches_stats (c : SieveCache K V) (k1 k2 k3 kg : K)
    (v1 v2 : V) :
    ((SieveCache.probe c k1 v1).1).stats = c.stats ∧
    ((SieveCache.add c k2 v2).1).stats = c.stats ∧
    ((SieveCache.delete c k3).1).stats = c.stats ∧
    (SieveCache.purge c).stats = c.stats ∧
    ((evict c).1).stats = c.stats ∧
    c.stats.hits ≤ ((SieveCache.get c kg).1).stats.hits ∧
    c.stats.misses ≤ ((SieveCache.get c kg).1).stats.misses := by
  refine ⟨?_, ?_, ?_, rfl, evict_stats c, ?_, ?_⟩
  · rcases ha : alookup c.cache k1 with _ | id
    · have hs := insert_stats c k1 v1
      rcases hi : SieveCache.insert c k1 v1 with ⟨c1, o⟩
      rw [hi] at hs
      simp only at hs
      rcases o with _ | e <;> simp [SieveCache.probe, ha, hi, hs]
    · rcases hl : lockNode c.nodes id with e | n <;>
        simp [SieveCache.probe, ha, hl]
  · rcases ha : alookup c.cache k2 with _ | id
    · have hs := insert_stats c k2 v2
      rcases hi : SieveCache.insert c k2 v2 with ⟨c1, o⟩
      rw [hi] at hs
      simp only at hs
      rcases o with _ | e <;> simp [SieveCache.add, ha, hi, hs]
    · rcases hl : lockNode c.nodes id with e | n <;>
        simp [SieveCache.add, ha, hl]
  · rcases ha : alookup c.cache k3 with _ | id
    · simp [SieveCache.delete, ha]
    · have hs := unlink_node_stats { c with cache := aremove c.cache k3 } id
      rcases hu : unlink_node { c with cache := aremove c.cache k3 } id with ⟨c1, o⟩
      rw [hu] at hs
      simp only at hs
      rcases o with _ | e <;> simp [SieveCache.delete, ha, hu, hs]
  · rcases ha : alookup c.cache kg with _ | id
    · simp [SieveCache.get, ha]
    · rcases hl : lockNode c.nodes id with e | n <;>
        simp [SieveCache.get, ha, hl]
  · rcases ha : alookup c.cache kg with _ | id
    · simp [SieveCache.get, ha]
    · rcases hl : lockNode c.nodes id with e | n <;>
        simp [SieveCache.get, ha, hl]

/-! ## The linked-list segment toolbox (towards the eviction theorem) -/

theorem headD_nil {nx : Option Nat} : headD ([] : List Nat) nx = nx := rfl

theorem headD_cons {j : Nat} {t : List Nat} {nx : Option Nat} :
    headD (j :: t) nx = some j := rfl

theorem headD_append (xs ys : List Nat) (nx : Option Nat) :
    headD (xs ++ ys) nx = headD xs (headD ys nx) := by
  cases xs <;> rfl

theorem headD_ne_nil {l : List Nat} (h : l ≠ []) (x y : Option Nat) :
    headD l x = headD l y := by
  cases l with
  | nil => exact absurd rfl h
  | cons a t => rfl

theorem headD_eq_headq (l : List Nat) : headD l none = l.head? := by
  cases l <;> rfl

theorem lastD_append (xs ys : List Nat) :
    ∀ pr : Option Nat, lastD pr (xs ++ ys) = lastD (lastD pr xs) ys := by
  induction xs with
  | nil => intro pr; rfl
  | cons a t ih => intro pr; simp [lastD, ih]

theorem lastD_concat (pr : Option Nat) (xs : List Nat) (a : Nat) :
    lastD pr (xs ++ [a]) = some a := by
  rw [lastD_append]; rfl

theorem lastD_mem :
    ∀ (l : List Nat) (pr : Option Nat), l ≠ [] → ∃ j ∈ l, lastD pr l = some j := by
  intro l
  induction l with
  | nil => intro pr h; exact absurd rfl h
  | cons a t ih =>
    intro pr _
    cases t with
    | nil => exact ⟨a, List.mem_singleton_self a, rfl⟩
    | cons b t2 =>
      obtain ⟨j, hj, he⟩ := ih (some a) (by simp)
      exact ⟨j, List.mem_cons_of_mem a hj, he⟩

theorem chainSeg_cons {nodes : List (Nat × Node K V)} {id : Nat}
    {n : Node K V} (hf : hfind nodes id = some n) (pr : Option Nat)
    (rest : List Nat) (nx : Option Nat) :
    chainSeg nodes pr (id :: rest) nx =
      (!n.poisoned && decide (n.prev = pr) && decide (n.next = headD rest nx) &&
        chainSeg nodes (some id) rest nx) := by
  simp [chainSeg, hf]

theorem chainSeg_cons_none {nodes : List (Nat × Node K V)} {id : Nat}
    (hf : hfind nodes id = none) (pr : Option Nat) (rest : List Nat)
    (nx : Option Nat) : chainSeg nodes pr (id :: rest) nx = false := by
  simp [chainSeg, hf]

theorem chainSeg_append {nodes : List (Nat × Node K V)} :
    ∀ (xs : List Nat) (pr : Option Nat) (ys : List Nat) (nx : Option Nat),
      chainSeg nodes pr (xs ++ ys) nx =
        (chainSeg nodes pr xs (headD ys nx) &&
          chainSeg nodes (lastD pr xs) ys nx) := by
  intro xs
  induction xs with
  | nil => intro pr ys nx; simp [chainSeg, lastD]
  | cons a t ih =>
    intro pr ys nx
    rcases hf : hfind nodes a with _ | n
    · rw [List.cons_append, chainSeg_cons_none hf, chainSeg_cons_none hf]
      rfl
    · rw [List.cons_append, chainSeg_cons hf, chainSeg_cons hf,
        headD_append, ih (some a) ys nx]
      simp only [lastD]
      simp [Bool.and_assoc]

theorem chainSeg_mem_find {nodes : List (Nat × Node K V)} :
    ∀ (l : List Nat) (pr nx : Option Nat) (id : Nat),
      chainSeg nodes pr l nx = true → id ∈ l →
      ∃ n, hfind nodes id = some n ∧ n.poisoned = false := by
  intro l
  induction l with
  | nil => intro pr nx id _ hm; exact absurd hm (List.not_mem_nil id)
  | cons a t ih =>
    intro pr nx id hc hm
    rcases hf : hfind nodes a with _ | n
    · rw [chainSeg_cons_none hf] at hc
      exact absurd hc (by simp)
    · rw [chainSeg_cons hf] at hc
      simp only [Bool.and_eq_true] at hc
      rcases List.mem_cons.mp hm with rfl | hmt
      · exact ⟨n, hf, by simpa using hc.1.1.1⟩
      · exact ih (some a) nx id hc.2 hmt

theorem chainSeg_prev_mem {nodes : List (Nat × Node K V)} :
    ∀ (l : List Nat) (pr nx : Option Nat) (id : Nat) (n : Node K V),
      chainSeg nodes pr l nx = true → id ∈ l → hfind nodes id = some n →
      n.prev = pr ∨ ∃ j, j ∈ l ∧ n.prev = some j := by
  intro l
  induction l with
  | nil => intro pr nx id n _ hm; exact absurd hm (List.not_mem_nil id)
  | cons a t ih =>
    intro pr nx id n hc hm hf
    rcases hfa : hfind nodes a with _ | na
    · rw [chainSeg_cons_none hfa] at hc
      exact absurd hc (by simp)
    · rw [chainSeg_cons hfa] at hc
      simp only [Bool.and_eq_true, decide_eq_true_eq] at hc
      rcases List.mem_cons.mp hm with rfl | hmt
      · rw [hfa] at hf
        cases hf
        exact Or.inl hc.1.1.2
      · rcases ih (some a) nx id n hc.2 hmt hf with hp | ⟨j, hj, hp⟩
        · exact Or.inr ⟨a, List.mem_cons_self a t, hp⟩
        · exact Or.inr ⟨j, List.mem_cons_of_mem a hj, hp⟩

theorem chainSeg_hset_visited {nodes : List (Nat × Node K V)} {id : Nat}
    {n : Node K V} {b : Bool} (hf : hfind nodes id = some n) :
    ∀ (l : List Nat) (pr nx : Option Nat),
      chainSeg (hset nodes id { n with visited := b }) pr l nx =
        chainSeg nodes pr l nx := by
  intro l
  induction l with
  | nil => intro pr nx; rfl
  | cons a t ih =>
    intro pr nx
    by_cases ha : a = id
    · subst ha
      rw [chainSeg_cons (hfind_hset_self hf) pr t nx, chainSeg_cons hf pr t nx,
        ih (some a) nx]
    · rcases hfa : hfind nodes a with _ | na
      · rw [chainSeg_cons_none hfa, chainSeg_cons_none (by rw [hfind_hset_ne ha, hfa])]
      · rw [chainSeg_cons hfa, chainSeg_cons (by rw [hfind_hset_ne ha, hfa] : hfind (hset nodes id { n with visited := b }) a = some na),
          ih (some a) nx]

theorem chainSeg_hset_not_mem {nodes : List (Nat × Node K V)} {id : Nat}
    {m : Node K V} :
    ∀ (l : List Nat) (pr nx : Option Nat), id ∉ l →
      chainSeg (hset nodes id m) pr l nx = chainSeg nodes pr l nx := by
  intro l
  induction l with
  | nil => intro pr nx _; rfl
  | cons a t ih =>
    intro pr nx hm
    have ha : a ≠ id := fun e => hm (e ▸ List.mem_cons_self a t)
    have hmt : id ∉ t := fun e => hm (List.mem_cons_of_mem a e)
    rcases hfa : hfind nodes a with _ | na
    · rw [chainSeg_cons_none hfa, chainSeg_cons_none (by rw [hfind_hset_ne ha, hfa])]
    · rw [chainSeg_cons hfa, chainSeg_cons (by rw [hfind_hset_ne ha, hfa] : hfind (hset nodes id m) a = some na),
        ih (some a) nx hmt]

theorem lockNode_ok {nodes : List (Nat × Node K V)} {id : Nat} {n : Node K V}
    (h : lockNode nodes id = Except.ok n) :
    hfind nodes id = some n ∧ n.poisoned = false := by
  rcases hfc : hfind nodes id with _ | n1
  · simp [lockNode, hfc] at h
  · by_cases hp : n1.poisoned = true
    · simp [lockNode, hfc, hp] at h
    · have hp2 : n1.poisoned = false := by simpa using hp
      simp [lockNode, hfc, hp2] at h
      subst h
      exact ⟨rfl, hp2⟩

theorem trueInOrder_le_length (nodes : List (Nat × Node K V)) :
    ∀ order : List Nat, trueInOrder nodes order ≤ order.length := by
  intro order
  induction order with
  | nil => exact Nat.le_refl 0
  | cons a t ih =>
    have hb : (match hfind nodes a with
      | some n => if n.visited then 1 else 0
      | none => 0) ≤ 1 := by
      rcases hfind nodes a with _ | n
      · exact Nat.zero_le 1
      · rcases hv : n.visited <;> simp [hv]
    show (match hfind nodes a with
      | some n => if n.visited then 1 else 0
      | none => 0) + trueInOrder nodes t ≤ t.length + 1
    omega

theorem trueInOrder_hset_not_mem {nodes : List (Nat × Node K V)} {id : Nat}
    {m : Node K V} :
    ∀ order : List Nat, id ∉ order →
      trueInOrder (hset nodes id m) order = trueInOrder nodes order := by
  intro order
  induction order with
  | nil => intro _; rfl
  | cons a t ih =>
    intro hm
    have ha : a ≠ id := fun e => hm (e ▸ List.mem_cons_self a t)
    have hmt : id ∉ t := fun e => hm (List.mem_cons_of_mem a e)
    show _ + _ = _ + _
    rw [hfind_hset_ne ha, ih hmt]

theorem trueInOrder_hset_clear {nodes : List (Nat × Node K V)} :
    ∀ (order : List Nat) (cur : Nat) (n : Node K V), order.Nodup →
      cur ∈ order → hfind nodes cur = some n → n.visited = true →
      trueInOrder (hset nodes cur { n with visited := false }) order + 1 =
        trueInOrder nodes order := by
  intro order
  induction order with
  | nil => intro cur n _ hm; exact absurd hm (List.not_mem_nil cur)
  | cons a t ih =>
    intro cur n hnd hm hf hv
    obtain ⟨hat, hndt⟩ := List.nodup_cons.mp hnd
    rcases List.mem_cons.mp hm with rfl | hmt
    · show (match hfind (hset nodes cur { n with visited := false }) cur with
        | some n => if n.visited then 1 else 0
        | none => 0) + _ + 1 = _ + _
      rw [hfind_hset_self hf, hf, trueInOrder_hset_not_mem t hat]
      simp [hv]
      omega
    · have ha : a ≠ cur := fun e => hat (e ▸ hmt)
      show _ + _ + 1 = _ + _
      rw [hfind_hset_ne ha]
      have := ih cur n hndt hmt hf hv
      omega

theorem trueCount_hset_le {nodes : List (Nat × Node K V)} {id : Nat}
    {m : Node K V} (hm : m.visited = false) :
    trueCount (hset nodes id m) ≤ trueCount nodes := by
  induction nodes with
  | nil => exact Nat.le_refl 0
  | cons p t ih =>
    rw [hset_cons]
    by_cases hp : p.1 = id
    · rw [if_pos hp]
      show (if m.visited then 1 else 0) + trueCount (hset t id m) ≤
        (if p.2.visited then 1 else 0) + trueCount t
      rw [hm]
      have h0 : (if (false : Bool) then 1 else 0) = 0 := rfl
      rw [h0]
      have hb : (if p.2.visited then 1 else 0) = 0 ∨
          (if p.2.visited then 1 else 0) = 1 := by
        rcases p.2.visited <;> simp
      omega
    · rw [if_neg hp]
      show (if p.2.visited then 1 else 0) + trueCount (hset t id m) ≤
        (if p.2.visited then 1 else 0) + trueCount t
      omega

theorem trueCount_hset_clear {nodes : List (Nat × Node K V)} {id : Nat}
    {n : Node K V} (hf : hfind nodes id = some n) (hv : n.visited = true) :
    trueCount (hset nodes id { n with visited := false }) < trueCount nodes := by
  induction nodes with
  | nil => simp [hfind] at hf
  | cons p t ih =>
    rw [hset_cons]
    by_cases hp : p.1 = id
    · have hpn : p.2 = n := by
        simp only [hfind, hp, if_true] at hf
        exact Option.some_injective _ hf
      rw [if_pos hp]
      have hle : trueCount (hset t id { n with visited := false }) ≤ trueCount t :=
        trueCount_hset_le rfl
      show (if ({ n with visited := false } : Node K V).visited then 1 else 0) +
          trueCount (hset t id { n with visited := false }) <
        (if p.2.visited then 1 else 0) + trueCount t
      rw [hpn, hv]
      have h0 : (if ({ n with visited := false } : Node K V).visited then 1 else 0) = 0 := rfl
      have h1 : (if (true : Bool) then 1 else 0) = 1 := rfl
      rw [h0, h1]
      omega
    · rw [if_neg hp]
      simp only [hfind, hp, if_false] at hf
      have := ih hf
      show (if p.2.visited then 1 else 0) +
          trueCount (hset t id { n with visited := false }) <
        (if p.2.visited then 1 else 0) + trueCount t
      omega

theorem trueCount_le_length (nodes : List (Nat × Node K V)) :
    trueCount nodes ≤ nodes.length := by
  induction nodes with
  | nil => exact Nat.le_refl 0
  | cons p t ih =>
    show (if p.2.visited then 1 else 0) + trueCount t ≤ t.length + 1
    rcases p.2.visited <;> simp <;> omega

/-- The model's eviction fuel is never exhausted: every loop iteration that
does not return clears a flag that was set. -/
theorem evictLoop_no_fuelOut :
    ∀ (fuel : Nat) (c : SieveCache K V) (insp : Nat),
      trueCount c.nodes < fuel → (evictLoop fuel c insp).2 ≠ .fuelOut := by
  intro fuel
  induction fuel with
  | zero => intro c insp h; omega
  | succ fuel ih =>
    intro c insp h
    rcases hh : c.hand with _ | cur
    · simp [evictLoop, hh]
    · rcases hl : lockNode c.nodes cur with e | n
      · simp [evictLoop, hh, hl]
      · have hf : hfind c.nodes cur = some n := (lockNode_ok hl).1
        cases hv : n.visited with
        | false => simp [evictLoop, hh, hl, hv]
        | true =>
          simp only [evictLoop, hh, hl, hv]
          rw [if_neg (by simp : ¬(true = false))]
          have hdec := trueCount_hset_clear hf hv
          split
          · exact ih _ _ (by simpa using Nat.lt_of_lt_of_le hdec (Nat.lt_succ_iff.mp h))
          · exact ih _ _ (by simpa using Nat.lt_of_lt_of_le hdec (Nat.lt_succ_iff.mp h))

theorem evict_no_fuelOut (c : SieveCache K V) : (evict c).2 ≠ .fuelOut := by
  unfold evict
  split
  · exact evictLoop_no_fuelOut _ _ _
      (Nat.lt_succ_of_le (trueCount_le_length c.nodes))
  · exact evictLoop_no_fuelOut _ _ _
      (Nat.lt_succ_of_le (trueCount_le_length c.nodes))

theorem indexAll_mem {nodes : List (Nat × Node K V)} {cache : List (K × Nat)} :
    ∀ (order : List Nat) (id : Nat) (n : Node K V),
      indexAll nodes cache order = true → id ∈ order →
      hfind nodes id = some n → alookup cache n.key = some id := by
  intro order id n h hm hf
  rw [indexAll, List.all_eq_true] at h
  have := h id hm
  rw [hf] at this
  exact of_decide_eq_true this

theorem indexAll_hset_visited {nodes : List (Nat × Node K V)}
    {cache : List (K × Nat)} {id : Nat} {n : Node K V} {b : Bool}
    (hf : hfind nodes id = some n) :
    ∀ order : List Nat,
      indexAll (hset nodes id { n with visited := b }) cache order =
        indexAll nodes cache order := by
  intro order
  induction order with
  | nil => rfl
  | cons a t ih =>
    simp only [indexAll, List.all_cons] at ih ⊢
    rw [ih]
    by_cases ha : a = id
    · subst ha
      rw [hfind_hset_self hf, hf]
    · rw [hfind_hset_ne ha]

/-- Unlinking a properly linked node removes exactly it from the list:
`unlink_node` succeeds, touches no other store component, and leaves the
remaining identities properly linked with `head`/`tail` at the new ends. -/
theorem unlink_surgery (c : SieveCache K V) (A B : List Nat) (cur : Nat)
    (hchain : chainSeg c.nodes none (A ++ cur :: B) none = true)
    (hnd : (A ++ cur :: B).Nodup)
    (hh : c.head = headD (A ++ cur :: B) none)
    (ht : c.tail = lastD none (A ++ cur :: B)) :
    ∃ c1, unlink_node c cur = (c1, none) ∧
      c1.cache = c.cache ∧ c1.size = c.size ∧ c1.hand = c.hand ∧
      c1.capacity = c.capacity ∧ c1.stats = c.stats ∧ c1.nextId = c.nextId ∧
      chainSeg c1.nodes none (A ++ B) none = true ∧
      c1.head = headD (A ++ B) none ∧
      c1.tail = lastD none (A ++ B) := by
  rw [chainSeg_append, Bool.and_eq_true] at hchain
  obtain ⟨hA, hcurB⟩ := hchain
  rcases hfcur : hfind c.nodes cur with _ | n
  · rw [chainSeg_cons_none hfcur] at hcurB
    exact absurd hcurB (by simp)
  rw [chainSeg_cons hfcur] at hcurB
  simp only [Bool.and_eq_true, decide_eq_true_eq, Bool.not_eq_true'] at hcurB
  obtain ⟨⟨⟨hpois, hprev⟩, hnext⟩, hB⟩ := hcurB
  have hlock : lockNode c.nodes cur = Except.ok n := by
    simp [lockNode, hfcur, hpois]
  rw [List.nodup_append] at hnd
  obtain ⟨hndA, hndCB, hdisj⟩ := hnd
  obtain ⟨hcurnB, hndB⟩ := List.nodup_cons.mp hndCB
  rcases List.eq_nil_or_concat A with rfl | ⟨A2, a, rfl⟩
  · -- the victim is the head
    simp only [lastD] at hprev
    rcases B with _ | ⟨b, B2⟩
    · -- singleton list
      simp only [headD] at hnext
      refine ⟨{ c with head := none, tail := none }, ?_, rfl, rfl, rfl, rfl,
        rfl, rfl, rfl, rfl, rfl⟩
      simp [unlink_node, hlock, hprev, hnext]
    · -- head victim with a successor
      simp only [headD] at hnext
      rcases hfb : hfind c.nodes b with _ | nb
      · rw [chainSeg_cons_none hfb] at hB
        exact absurd hB (by simp)
      rw [chainSeg_cons hfb] at hB
      simp only [Bool.and_eq_true, decide_eq_true_eq, Bool.not_eq_true'] at hB
      obtain ⟨⟨⟨hpb, hprevb⟩, hnextb⟩, hB2⟩ := hB
      have hlockb : lockNode c.nodes b = Except.ok nb := by
        simp [lockNode, hfb, hpb]
      have hbB2 : b ∉ B2 := (List.nodup_cons.mp hndB).1
      refine ⟨{ c with
          head := some b
          nodes := hset c.nodes b { nb with prev := none } }, ?_, rfl, rfl,
        rfl, rfl, rfl, rfl, ?_, rfl, ?_⟩
      · simp [unlink_node, hlock, hprev, hnext, hlockb]
      · rw [List.nil_append, chainSeg_cons (hfind_hset_self hfb),
          chainSeg_hset_not_mem _ _ _ hbB2]
        simp [hpb, hnextb, hB2]
      · show c.tail = _
        rw [ht]
        simp only [List.nil_append, lastD]
  · -- the victim has a predecessor (the last element of A)
    simp only [List.concat_eq_append] at hh ht hA hprev hndA hdisj ⊢
    rw [lastD_concat] at hprev
    rw [chainSeg_append, Bool.and_eq_true] at hA
    obtain ⟨hA2, hseg⟩ := hA
    rcases hfa : hfind c.nodes a with _ | na
    · rw [chainSeg_cons_none hfa] at hseg
      exact absurd hseg (by simp)
    rw [chainSeg_cons hfa] at hseg
    simp only [Bool.and_eq_true, decide_eq_true_eq, Bool.not_eq_true'] at hseg
    obtain ⟨⟨⟨hpa, hpreva⟩, hnexta⟩, _⟩ := hseg
    simp only [headD] at hnexta
    have hlocka : lockNode c.nodes a = Except.ok na := by
      simp [lockNode, hfa, hpa]
    have haA2 : a ∉ A2 := by
      rw [List.nodup_append] at hndA
      exact fun hmem => hndA.2.2 hmem (List.mem_singleton_self a)
    have haA : a ∈ A2 ++ [a] := List.mem_append_right A2 (List.mem_singleton_self a)
    have hanB : a ∉ cur :: B := hdisj haA
    have hacur : a ≠ cur := fun e => hanB (e ▸ List.mem_cons_self cur B)
    rcases B with _ | ⟨b, B2⟩
    · -- the victim is the tail
      simp only [headD] at hnext
      refine ⟨{ c with
          nodes := hset c.nodes a { na with next := none }
          tail := some a }, ?_, rfl, rfl, rfl, rfl, rfl, rfl, ?_, ?_, ?_⟩
      · simp [unlink_node, hlock, hprev, hnext, hlocka]
      · rw [List.append_nil, chainSeg_append]
        refine Bool.and_eq_true _ _ |>.mpr ⟨?_, ?_⟩
        · rw [chainSeg_hset_not_mem _ _ _ haA2]
          exact hA2
        · rw [chainSeg_cons (hfind_hset_self hfa)]
          simp [hpa, hpreva, headD, chainSeg]
      · show c.head = _
        rw [hh, List.append_nil, headD_append]
        exact headD_ne_nil (l := A2 ++ [a]) (by simp) _ _
      · rw [List.append_nil, lastD_concat]
    · -- interior victim: predecessor a and successor b
      simp only [headD] at hnext
      rcases hfb : hfind c.nodes b with _ | nb
      · rw [chainSeg_cons_none hfb] at hB
        exact absurd hB (by simp)
      rw [chainSeg_cons hfb] at hB
      simp only [Bool.and_eq_true, decide_eq_true_eq, Bool.not_eq_true'] at hB
      obtain ⟨⟨⟨hpb, hprevb⟩, hnextb⟩, hB2⟩ := hB
      have hbB2 : b ∉ B2 := (List.nodup_cons.mp hndB).1
      have hanb : a ∉ b :: B2 := fun hmem => hanB (List.mem_cons_of_mem cur hmem)
      have hab : a ≠ b := fun e => hanb (e ▸ List.mem_cons_self b B2)
      have haB2 : a ∉ B2 := fun hmem => hanb (List.mem_cons_of_mem b hmem)
      have hbA2 : b ∉ A2 := by
        intro hmem
        exact hdisj (List.mem_append_left [a] hmem)
          (List.mem_cons_of_mem cur (List.mem_cons_self b B2))
      have hfb1 : hfind (hset c.nodes a { na with next := some b }) b = some nb := by
        rw [hfind_hset_ne (Ne.symm hab), hfb]
      have hlockb1 : lockNode (hset c.nodes a { na with next := some b }) b =
          Except.ok nb := by
        simp [lockNode, hfb1, hpb]
      refine ⟨{ c with
          nodes := hset (hset c.nodes a { na with next := some b }) b
            { nb with prev := some a } }, ?_, rfl, rfl, rfl, rfl, rfl, rfl,
        ?_, ?_, ?_⟩
      · simp [unlink_node, hlock, hprev, hnext, hlocka, hlockb1]
      · rw [chainSeg_append]
        refine Bool.and_eq_true _ _ |>.mpr ⟨?_, ?_⟩
        · rw [chainSeg_append]
          refine Bool.and_eq_true _ _ |>.mpr ⟨?_, ?_⟩
          · rw [chainSeg_hset_not_mem _ _ _ hbA2, chainSeg_hset_not_mem _ _ _ haA2]
            exact hA2
          · have hfa1 : hfind (hset (hset c.nodes a { na with next := some b }) b
                { nb with prev := some a }) a =
                some { na with next := some b } := by
              rw [hfind_hset_ne hab, hfind_hset_self hfa]
            rw [chainSeg_cons hfa1]
            simp [hpa, hpreva, headD, chainSeg]
        · rw [lastD_concat, chainSeg_cons (hfind_hset_self hfb1)]
          rw [chainSeg_hset_not_mem _ _ _ hbB2, chainSeg_hset_not_mem _ _ _ haB2]
          simp [hpb, hnextb, hB2]
      · show c.head = _
        rw [hh]
        simp [headD_append, headD_cons, headD_nil]
      · show c.tail = _
        rw [ht]
        simp [lastD_append, lastD]

/-- The SIEVE sweep, started with the hand on a live entry of a consistent
list, returns within `trueInOrder + 1` inspections having removed exactly
one entry (the victim) from the index and the list, with `size` decremented
and nothing else of the store changed. -/
theorem sweep :
    ∀ (fuel : Nat) (c : SieveCache K V) (order : List Nat) (insp cur : Nat),
      c.hand = some cur → cur ∈ order →
      chainSeg c.nodes none order none = true →
      order.Nodup →
      c.head = headD order none →
      c.tail = lastD none order →
      indexAll c.nodes c.cache order = true →
      trueInOrder c.nodes order < fuel →
      ∃ c' k vic vkey,
        evictLoop fuel c insp = (c', .done (insp + k)) ∧
        1 ≤ k ∧ k ≤ trueInOrder c.nodes order + 1 ∧
        vic ∈ order ∧
        (∃ n0, hfind c.nodes vic = some n0 ∧ n0.key = vkey) ∧
        alookup c.cache vkey = some vic ∧
        c'.cache = aremove c.cache vkey ∧
        c'.size = c.size - 1 ∧
        c'.capacity = c.capacity ∧ c'.stats = c.stats ∧
        chainSeg c'.nodes none (order.erase vic) none = true ∧
        c'.head = headD (order.erase vic) none ∧
        c'.tail = lastD none (order.erase vic) := by
  intro fuel
  induction fuel with
  | zero =>
    intro c order insp cur _ _ _ _ _ _ _ hfuel
    omega
  | succ fuel ih =>
    intro c order insp cur hhand hcur hchain hnd hhead htail hindex hfuel
    obtain ⟨n, hfn, hnp⟩ := chainSeg_mem_find order none none cur hchain hcur
    have hlock : lockNode c.nodes cur = Except.ok n := by
      simp [lockNode, hfn, hnp]
    cases hv : n.visited with
    | false =>
      obtain ⟨A, B, rfl⟩ := List.append_of_mem hcur
      have hcurA : cur ∉ A := by
        have hnd2 := hnd
        rw [List.nodup_append] at hnd2
        exact fun hmem => hnd2.2.2 hmem (List.mem_cons_self cur B)
      have herase : (A ++ cur :: B).erase cur = A ++ B := by
        rw [List.erase_append_right _ hcurA, List.erase_cons_head]
      obtain ⟨c1, huneq, hcc, hcs, hch, hccap, hcst, hcnext, hchain1, hhead1, htail1⟩ :=
        unlink_surgery { c with cache := aremove c.cache n.key } A B cur
          hchain hnd hhead htail
      rw [hhand] at huneq
      have hcc1 : c1.cache = aremove c.cache n.key := hcc
      have hcs1 : c1.size = c.size := hcs
      have hccap1 : c1.capacity = c.capacity := hccap
      have hcst1 : c1.stats = c.stats := hcst
      refine ⟨{ c1 with hand := n.prev, size := c1.size - 1 }, 1, cur, n.key,
        ?_, Nat.le_refl 1, by omega, hcur, ⟨n, hfn, rfl⟩,
        indexAll_mem (A ++ cur :: B) cur n hindex hcur hfn, ?_, ?_, ?_, ?_,
        ?_, ?_, ?_⟩
      · simp [evictLoop, hhand, hlock, hv, huneq]
      · show c1.cache = aremove c.cache n.key
        exact hcc1
      · show c1.size - 1 = c.size - 1
        rw [hcs1]
      · show c1.capacity = c.capacity
        exact hccap1
      · show c1.stats = c.stats
        exact hcst1
      · show chainSeg c1.nodes none ((A ++ cur :: B).erase cur) none = true
        rw [herase]
        exact hchain1
      · show c1.head = headD ((A ++ cur :: B).erase cur) none
        rw [herase]
        exact hhead1
      · show c1.tail = lastD none ((A ++ cur :: B).erase cur)
        rw [herase]
        exact htail1
    | true =>
      have hclear := trueInOrder_hset_clear order cur n hnd hcur hfn hv
      rcases chainSeg_prev_mem order none none cur n hchain hcur hfn
        with hpnone | ⟨j, hj, hpj⟩
      · -- the hand was at the head: wrap to the tail
        have horder_ne : order ≠ [] := List.ne_nil_of_mem hcur
        obtain ⟨j, hj, hlast⟩ := lastD_mem order none horder_ne
        obtain ⟨c', k', vic, vkey, heq, hk1, hk2, hvic, hn0, halook, hcache,
            hsize, hcap, hstats, hchain', hhead', htail'⟩ :=
          ih { c with
                nodes := hset c.nodes cur { n with visited := false }
                hand := c.tail }
            order (insp + 1) j
            (by show c.tail = some j; rw [htail, hlast])
            hj
            (by rw [chainSeg_hset_visited hfn]; exact hchain)
            hnd hhead htail
            (by rw [indexAll_hset_visited hfn]; exact hindex)
            (by show trueInOrder (hset c.nodes cur { n with visited := false })
                  order < fuel
                omega)
        have hk2a : k' ≤
            trueInOrder (hset c.nodes cur { n with visited := false }) order + 1 :=
          hk2
        refine ⟨c', k' + 1, vic, vkey, ?_, by omega, by omega, hvic, ?_,
          halook, hcache, hsize, hcap, hstats, hchain', hhead', htail'⟩
        · have hstep : evictLoop (fuel + 1) c insp =
              evictLoop fuel
                { c with
                    nodes := hset c.nodes cur { n with visited := false }
                    hand := c.tail } (insp + 1) := by
            simp [evictLoop, hhand, hlock, hv, hpnone]
          rw [hstep, heq, show insp + 1 + k' = insp + (k' + 1) from by omega]
        · obtain ⟨n0, hf0, hk0⟩ := hn0
          by_cases hvc : vic = cur
          · subst hvc
            rw [hfind_hset_self hfn] at hf0
            injection hf0 with h0
            exact ⟨n, hfn, by rw [← hk0, ← h0]⟩
          · rw [hfind_hset_ne hvc] at hf0
            exact ⟨n0, hf0, hk0⟩
      · -- move the hand to the predecessor
        obtain ⟨c', k', vic, vkey, heq, hk1, hk2, hvic, hn0, halook, hcache,
            hsize, hcap, hstats, hchain', hhead', htail'⟩ :=
          ih { c with
                nodes := hset c.nodes cur { n with visited := false }
                hand := some j }
            order (insp + 1) j
            rfl
            hj
            (by rw [chainSeg_hset_visited hfn]; exact hchain)
            hnd hhead htail
            (by rw [indexAll_hset_visited hfn]; exact hindex)
            (by show trueInOrder (hset c.nodes cur { n with visited := false })
                  order < fuel
                omega)
        have hk2a : k' ≤
            trueInOrder (hset c.nodes cur { n with visited := false }) order + 1 :=
          hk2
        refine ⟨c', k' + 1, vic, vkey, ?_, by omega, by omega, hvic, ?_,
          halook, hcache, hsize, hcap, hstats, hchain', hhead', htail'⟩
        · have hstep : evictLoop (fuel + 1) c insp =
              evictLoop fuel
                { c with
                    nodes := hset c.nodes cur { n with visited := false }
                    hand := some j } (insp + 1) := by
            simp [evictLoop, hhand, hlock, hv, hpj]
          rw [hstep, heq, show insp + 1 + k' = insp + (k' + 1) from by omega]
        · obtain ⟨n0, hf0, hk0⟩ := hn0
          by_cases hvc : vic = cur
          · subst hvc
            rw [hfind_hset_self hfn] at hf0
            injection hf0 with h0
            exact ⟨n, hfn, by rw [← hk0, ← h0]⟩
          · rw [hfind_hset_ne hvc] at hf0
            exact ⟨n0, hf0, hk0⟩

theorem order_length_le_nodes {nodes : List (Nat × Node K V)}
    {order : List Nat} (hnd : order.Nodup)
    (hsub : ∀ id ∈ order, ∃ n, hfind nodes id = some n) :
    order.length ≤ nodes.length := by
  have hs : order ⊆ nodes.map Prod.fst := by
    intro id hid
    obtain ⟨n, hn⟩ := hsub id hid
    exact hfind_some_mem hn
  have := (hnd.subperm hs).length_le
  simpa using this

/-- C4: invoked on a store whose list is non-empty and whose structures are
consistent (`Consistent`: every index entry linked exactly once, hand live
or unset, no poisoned guard), eviction terminates with a normal return,
removes exactly one entry — the victim — from both the index and the list,
decrements `size` by one, and inspects at most `2 N` flags where `N` is the
size before the call. -/
theorem evict_consistent_removes_one (c : SieveCache K V) (order : List Nat)
    (hc : Consistent c order) (hne : order ≠ []) :
    ∃ c' insp vic vkey,
      evict c = (c', EvictResult.done insp) ∧
      1 ≤ insp ∧ insp ≤ 2 * c.size ∧
      vic ∈ order ∧
      alookup c.cache vkey = some vic ∧
      c'.cache = aremove c.cache vkey ∧
      c'.cache.length + 1 = c.cache.length ∧
      alookup c'.cache vkey = none ∧
      c'.size + 1 = c.size ∧
      chainSeg c'.nodes none (order.erase vic) none = true ∧
      c'.head = headD (order.erase vic) none ∧
      c'.tail = lastD none (order.erase vic) ∧
      (order.erase vic).length + 1 = order.length := by
  obtain ⟨hchain, hhead, htail, hhand, hsize, hnd, hilen, hknd, hidx⟩ := hc
  have hheadD : c.head = headD order none := by
    rw [headD_eq_headq]
    exact hhead
  have hsubf : ∀ id ∈ order, ∃ n, hfind c.nodes id = some n := by
    intro id hid
    obtain ⟨n, hn, _⟩ := chainSeg_mem_find order none none id hchain hid
    exact ⟨n, hn⟩
  have hlen2 : order.length ≤ c.nodes.length := order_length_le_nodes hnd hsubf
  have hfuel : trueInOrder c.nodes order < c.nodes.length + 1 :=
    Nat.lt_succ_of_le (Nat.le_trans (trueInOrder_le_length c.nodes order) hlen2)
  have hpos : 1 ≤ order.length := by
    cases order with
    | nil => exact absurd rfl hne
    | cons a t => simp
  have htio : trueInOrder c.nodes order ≤ order.length :=
    trueInOrder_le_length c.nodes order
  rcases hh : c.hand with _ | h0
  · -- the hand is unset: the sweep starts at the tail
    obtain ⟨j, hj, hlast⟩ := lastD_mem order none hne
    obtain ⟨c', k, vic, vkey, heq, hk1, hk2, hvic, hn0, halook, hcache,
        hsizeE, hcap, hstats, hchain', hhead', htail'⟩ :=
      sweep (c.nodes.length + 1) { c with hand := c.tail } order 0 j
        (by show c.tail = some j; rw [htail, hlast])
        hj hchain hnd hheadD htail hidx hfuel
    rw [Nat.zero_add] at heq
    have hk2a : k ≤ trueInOrder c.nodes order + 1 := hk2
    have hsizeE1 : c'.size = c.size - 1 := hsizeE
    refine ⟨c', k, vic, vkey, ?_, hk1, by omega, hvic, halook, hcache, ?_,
      ?_, ?_, hchain', hhead', htail', ?_⟩
    · simp only [evict, hh, Option.isNone_none, if_true]
      exact heq
    · rw [hcache]
      exact alookup_some_length_aremove halook
    · rw [hcache]
      exact alookup_aremove_self hknd
    · omega
    · rw [List.length_erase_of_mem hvic]
      omega
  · -- the hand is set: it must be live, and the sweep starts there
    have hmem : h0 ∈ order := by
      rw [hh] at hhand
      simpa using hhand
    obtain ⟨c', k, vic, vkey, heq, hk1, hk2, hvic, hn0, halook, hcache,
        hsizeE, hcap, hstats, hchain', hhead', htail'⟩ :=
      sweep (c.nodes.length + 1) c order 0 h0 hh hmem hchain hnd hheadD
        htail hidx hfuel
    rw [Nat.zero_add] at heq
    have hk2a : k ≤ trueInOrder c.nodes order + 1 := hk2
    have hsizeE1 : c'.size = c.size - 1 := hsizeE
    refine ⟨c', k, vic, vkey, ?_, hk1, by omega, hvic, halook, hcache, ?_,
      ?_, ?_, hchain', hhead', htail', ?_⟩
    · simp only [evict, hh, Option.isNone_some, if_false]
      exact heq
    · rw [hcache]
      exact alookup_some_length_aremove halook
    · rw [hcache]
      exact alookup_aremove_self hknd
    · omega
    · rw [List.length_erase_of_mem hvic]
      omega

theorem evict_consistent_removes_one_witness :
    ∃ c' insp vic vkey,
      evict wCache = (c', EvictResult.done insp) ∧
      1 ≤ insp ∧ insp ≤ 2 * wCache.size ∧
      vic ∈ [1, 0] ∧
      alookup wCache.cache vkey = some vic ∧
      c'.cache = aremove wCache.cache vkey ∧
      c'.cache.length + 1 = wCache.cache.length ∧
      alookup c'.cache vkey = none ∧
      c'.size + 1 = wCache.size ∧
      chainSeg c'.nodes none (([1, 0] : List Nat).erase vic) none = true ∧
      c'.head = headD (([1, 0] : List Nat).erase vic) none ∧
      c'.tail = lastD none (([1, 0] : List Nat).erase vic) ∧
      (([1, 0] : List Nat).erase vic).length + 1 = ([1, 0] : List Nat).length :=
  evict_consistent_removes_one wCache [1, 0]
    ⟨by decide, by decide, by decide, by decide, by decide, by decide,
      by decide, by decide, by decide⟩
    (by decide)

end Nitro
